import Mathlib

/-!
Verification of the mintyparse WZ-archive parser core.

The Go sources are shallowly embedded: a seekable byte stream is an immutable
`List Nat` of byte values together with a position; every reading primitive
returns its result (or a decode error) together with the position after the
call.  Machine integers are modelled as `Nat` (unsigned, with explicit
`% 2 ^ 32` where Go's `uint32` arithmetic wraps) and as `Int` where the Go
code uses signed types.  A read that fails leaves the position unchanged; no
theorem below depends on the position after a failed read.
-/

set_option maxRecDepth 10000

namespace Mintyparse

instance {ε α : Type} [DecidableEq ε] [DecidableEq α] : DecidableEq (Except ε α)
  | .ok a, .ok b =>
    if h : a = b then .isTrue (by rw [h]) else .isFalse (fun hc => by cases hc; exact h rfl)
  | .ok _, .error _ => .isFalse (fun hc => by cases hc)
  | .error _, .ok _ => .isFalse (fun hc => by cases hc)
  | .error a, .error b =>
    if h : a = b then .isTrue (by rw [h]) else .isFalse (fun hc => by cases hc; exact h rfl)

/-- Decode errors of the parser.  The Go code returns wrapped string errors;
each constructor below corresponds to one distinct error site. -/
inductive Err where
  | shortRead : Err
  | badMagic : Err
  | badBodyOffset : Err
  | badSeek : Err
  | badStringLength : Int → Err
  | badStringIndicator : Nat → Err
  | unknownEntryType : Nat → Err
  | versionNotFound : Err
  deriving DecidableEq

/-- Read one byte at `pos`; fails with `shortRead` past the end of the data. -/
def readByte (data : List Nat) (pos : Nat) : Except Err Nat × Nat :=
  if pos < data.length then (.ok (data.getD pos 0), pos + 1) else (.error .shortRead, pos)

/-- Read `n` consecutive bytes (the model of `io.ReadFull` / `binary.Read`
into a fixed-size value). -/
def readBytes (data : List Nat) (pos n : Nat) : Except Err (List Nat) × Nat :=
  if pos + n ≤ data.length then (.ok ((data.drop pos).take n), pos + n)
  else (.error .shortRead, pos)

/-- Little-endian value of a byte list. -/
def leVal : List Nat → Nat
  | [] => 0
  | b :: rest => b + 256 * leVal rest

/-- Read a little-endian `uint16`. -/
def readU16 (data : List Nat) (pos : Nat) : Except Err Nat × Nat :=
  match readBytes data pos 2 with
  | (.ok bs, p) => (.ok (leVal bs), p)
  | (.error e, p) => (.error e, p)

/-- Read a little-endian `uint32`. -/
def readU32 (data : List Nat) (pos : Nat) : Except Err Nat × Nat :=
  match readBytes data pos 4 with
  | (.ok bs, p) => (.ok (leVal bs), p)
  | (.error e, p) => (.error e, p)

/-- Read a little-endian `uint64`. -/
def readU64 (data : List Nat) (pos : Nat) : Except Err Nat × Nat :=
  match readBytes data pos 8 with
  | (.ok bs, p) => (.ok (leVal bs), p)
  | (.error e, p) => (.error e, p)

/-- The value of a byte reinterpreted as Go's `int8`. -/
def int8Val (b : Nat) : Int :=
  if b < 128 then (b : Int) else (b : Int) - 256

/-- The value of a `uint32` reinterpreted as Go's `int32`. -/
def int32Val (u : Nat) : Int :=
  if u < 2 ^ 31 then (u : Int) else (u : Int) - 2 ^ 32

/-- Read a little-endian `int32`. -/
def readInt32 (data : List Nat) (pos : Nat) : Except Err Int × Nat :=
  match readU32 data pos with
  | (.ok u, p) => (.ok (int32Val u), p)
  | (.error e, p) => (.error e, p)

/-- `ReadCompressedInt32` (part_006): one signed byte, or the marker `-128`
followed by a little-endian `int32`. -/
def readCompressedInt32 (data : List Nat) (pos : Nat) : Except Err Int × Nat :=
  match readByte data pos with
  | (.error e, p) => (.error e, p)
  | (.ok b, p1) =>
    if int8Val b = -128 then readInt32 data p1
    else (.ok (int8Val b), p1)

/-! ## 32-bit wrapping arithmetic (crypto.go `DecryptOffset`) -/

/-- Reduce to a 32-bit unsigned value. -/
def mask32 (x : Nat) : Nat := x % 4294967296

/-- Wrapping 32-bit addition. -/
def add32 (a b : Nat) : Nat := (mask32 a + mask32 b) % 4294967296

/-- Wrapping 32-bit subtraction. -/
def sub32 (a b : Nat) : Nat := (mask32 a + (4294967296 - mask32 b)) % 4294967296

/-- Wrapping 32-bit multiplication. -/
def mul32 (a b : Nat) : Nat := mask32 a * mask32 b % 4294967296

/-- 32-bit XOR. -/
def xor32 (a b : Nat) : Nat := mask32 a ^^^ mask32 b

/-- `rotateLeft` from crypto.go: `(x << n) | (x >> (32 - n))` on `uint32`,
where a shift by 32 or more yields zero (Go shift semantics). -/
def rotateLeft32 (x n : Nat) : Nat :=
  ((mask32 x <<< n) % 4294967296) ||| (mask32 x >>> (32 - n))

/-- `DecryptOffset` from crypto.go, translated step by step. -/
def decryptOffset (currentPos bodyOffset versionHash encryptedOffset : Nat) : Nat :=
  let o1 := xor32 (sub32 currentPos bodyOffset) 0xFFFFFFFF
  let o2 := mul32 o1 versionHash
  let o3 := sub32 o2 0x581C3F6D
  let o4 := rotateLeft32 o3 (o3 &&& 0x1F)
  let o5 := xor32 o4 encryptedOffset
  add32 o5 (mul32 bodyOffset 2)

/-- The specification's `rotate_left(v, n)`: `(v << (n%32)) | (v >> (32 - n%32))`
with the count taken modulo 32. -/
def rotlSpec (v n : Nat) : Nat :=
  (mask32 v * 2 ^ (n % 32)) % 4294967296 ||| mask32 v / 2 ^ (32 - n % 32)

/-- The offset-decryption formula exactly as the specification writes it:
`x = ((P - B) XOR 0xFFFFFFFF) · H - 0x581C3F6D`, then
`x = rotate_left(x, x & 0x1F)`, and the result is `(x XOR E) + 2·B`,
all in wrapping 32-bit unsigned arithmetic. -/
def decryptOffsetSpec (p b h e : Nat) : Nat :=
  let x1 := xor32 (sub32 p b) 0xFFFFFFFF
  let x2 := mul32 x1 h
  let x3 := sub32 x2 0x581C3F6D
  let x4 := rotlSpec x3 (x3 % 32)
  add32 (xor32 x4 e) (mul32 b 2)

/-- `ReadEncryptedOffset` (part_006): remembers the position `P` at which the
4-byte little-endian value starts, reads it, and decrypts with
`DecryptOffset P bodyOffset versionHash E`. -/
def readEncryptedOffset (data : List Nat) (pos bodyOffset versionHash : Nat) :
    Except Err Nat × Nat :=
  let currentPos := pos
  match readU32 data pos with
  | (.error e, p) => (.error e, p)
  | (.ok e, p1) => (.ok (decryptOffset currentPos bodyOffset versionHash e), p1)

/-! ## AES-256 ECB (the block cipher behind crypto.go's key stream)

crypto.go calls Go's `crypto/aes` with a 32-byte key, i.e. standard FIPS-197
AES-256.  The cipher is spelled out here so that the key stream is fully
executable; the state is the usual column-major 16-byte block. -/

/-- The AES S-box. -/
def aesSbox : List Nat := [
  0x63, 0x7c, 0x77, 0x7b, 0xf2, 0x6b, 0x6f, 0xc5, 0x30, 0x01, 0x67, 0x2b, 0xfe, 0xd7, 0xab, 0x76,
  0xca, 0x82, 0xc9, 0x7d, 0xfa, 0x59, 0x47, 0xf0, 0xad, 0xd4, 0xa2, 0xaf, 0x9c, 0xa4, 0x72, 0xc0,
  0xb7, 0xfd, 0x93, 0x26, 0x36, 0x3f, 0xf7, 0xcc, 0x34, 0xa5, 0xe5, 0xf1, 0x71, 0xd8, 0x31, 0x15,
  0x04, 0xc7, 0x23, 0xc3, 0x18, 0x96, 0x05, 0x9a, 0x07, 0x12, 0x80, 0xe2, 0xeb, 0x27, 0xb2, 0x75,
  0x09, 0x83, 0x2c, 0x1a, 0x1b, 0x6e, 0x5a, 0xa0, 0x52, 0x3b, 0xd6, 0xb3, 0x29, 0xe3, 0x2f, 0x84,
  0x53, 0xd1, 0x00, 0xed, 0x20, 0xfc, 0xb1, 0x5b, 0x6a, 0xcb, 0xbe, 0x39, 0x4a, 0x4c, 0x58, 0xcf,
  0xd0, 0xef, 0xaa, 0xfb, 0x43, 0x4d, 0x33, 0x85, 0x45, 0xf9, 0x02, 0x7f, 0x50, 0x3c, 0x9f, 0xa8,
  0x51, 0xa3, 0x40, 0x8f, 0x92, 0x9d, 0x38, 0xf5, 0xbc, 0xb6, 0xda, 0x21, 0x10, 0xff, 0xf3, 0xd2,
  0xcd, 0x0c, 0x13, 0xec, 0x5f, 0x97, 0x44, 0x17, 0xc4, 0xa7, 0x7e, 0x3d, 0x64, 0x5d, 0x19, 0x73,
  0x60, 0x81, 0x4f, 0xdc, 0x22, 0x2a, 0x90, 0x88, 0x46, 0xee, 0xb8, 0x14, 0xde, 0x5e, 0x0b, 0xdb,
  0xe0, 0x32, 0x3a, 0x0a, 0x49, 0x06, 0x24, 0x5c, 0xc2, 0xd3, 0xac, 0x62, 0x91, 0x95, 0xe4, 0x79,
  0xe7, 0xc8, 0x37, 0x6d, 0x8d, 0xd5, 0x4e, 0xa9, 0x6c, 0x56, 0xf4, 0xea, 0x65, 0x7a, 0xae, 0x08,
  0xba, 0x78, 0x25, 0x2e, 0x1c, 0xa6, 0xb4, 0xc6, 0xe8, 0xdd, 0x74, 0x1f, 0x4b, 0xbd, 0x8b, 0x8a,
  0x70, 0x3e, 0xb5, 0x66, 0x48, 0x03, 0xf6, 0x0e, 0x61, 0x35, 0x57, 0xb9, 0x86, 0xc1, 0x1d, 0x9e,
  0xe1, 0xf8, 0x98, 0x11, 0x69, 0xd9, 0x8e, 0x94, 0x9b, 0x1e, 0x87, 0xe9, 0xce, 0x55, 0x28, 0xdf,
  0x8c, 0xa1, 0x89, 0x0d, 0xbf, 0xe6, 0x42, 0x68, 0x41, 0x99, 0x2d, 0x0f, 0xb0, 0x54, 0xbb, 0x16]

/-- S-box lookup. -/
def sboxAt (b : Nat) : Nat := aesSbox.getD b 0

/-- Multiplication by `x` in GF(2^8). -/
def xtimeGF (b : Nat) : Nat := if b < 128 then 2 * b else (2 * b) ^^^ 0x11B

/-- Multiplication by `x + 1` in GF(2^8). -/
def mul3GF (b : Nat) : Nat := xtimeGF b ^^^ b

/-- Rotate a 4-byte word left by one byte. -/
def rotWord (w : List Nat) : List Nat := w.drop 1 ++ w.take 1

/-- Apply the S-box to each byte of a word. -/
def subWord (w : List Nat) : List Nat := w.map sboxAt

/-- Bytewise XOR of two words. -/
def xorWord (a b : List Nat) : List Nat := List.zipWith (· ^^^ ·) a b

/-- AES round constants (AES-256 uses the first seven). -/
def aesRcon : List Nat := [0x01, 0x02, 0x04, 0x08, 0x10, 0x20, 0x40]

/-- The next word of the AES-256 key schedule, given all previous words. -/
def nextKeyWord (acc : List (List Nat)) : List Nat :=
  let i := acc.length
  let prev := acc.getD (i - 1) []
  let temp :=
    if i % 8 = 0 then xorWord (subWord (rotWord prev)) [aesRcon.getD (i / 8 - 1) 0, 0, 0, 0]
    else if i % 8 = 4 then subWord prev
    else prev
  xorWord (acc.getD (i - 8) []) temp

/-- Append `n` further words to the key schedule. -/
def addKeyWords (acc : List (List Nat)) : Nat → List (List Nat)
  | 0 => acc
  | n + 1 => addKeyWords (acc ++ [nextKeyWord acc]) n

/-- The 60-word AES-256 key schedule of a 32-byte key. -/
def keyWords (key : List Nat) : List (List Nat) :=
  addKeyWords ((List.range 8).map (fun i =>
    [key.getD (4 * i) 0, key.getD (4 * i + 1) 0, key.getD (4 * i + 2) 0, key.getD (4 * i + 3) 0])) 52

/-- Round key `r` as 16 bytes. -/
def roundKeyAES (w : List (List Nat)) (r : Nat) : List Nat :=
  (List.range 16).map (fun i => (w.getD (4 * r + i / 4) []).getD (i % 4) 0)

/-- AddRoundKey. -/
def addRoundKey (s rk : List Nat) : List Nat :=
  (List.range 16).map (fun i => s.getD i 0 ^^^ rk.getD i 0)

/-- SubBytes. -/
def subBytesAES (s : List Nat) : List Nat := s.map sboxAt

/-- ShiftRows on the column-major state. -/
def shiftRowsAES (s : List Nat) : List Nat :=
  (List.range 16).map (fun i => s.getD (i % 4 + 4 * ((i / 4 + i % 4) % 4)) 0)

/-- MixColumns on the column-major state. -/
def mixColumnsAES (s : List Nat) : List Nat :=
  (List.range 16).map (fun i =>
    let c := i / 4
    let a0 := s.getD (4 * c) 0
    let a1 := s.getD (4 * c + 1) 0
    let a2 := s.getD (4 * c + 2) 0
    let a3 := s.getD (4 * c + 3) 0
    if i % 4 = 0 then xtimeGF a0 ^^^ mul3GF a1 ^^^ a2 ^^^ a3
    else if i % 4 = 1 then a0 ^^^ xtimeGF a1 ^^^ mul3GF a2 ^^^ a3
    else if i % 4 = 2 then a0 ^^^ a1 ^^^ xtimeGF a2 ^^^ mul3GF a3
    else mul3GF a0 ^^^ a1 ^^^ a2 ^^^ xtimeGF a3)

/-- Rounds `r, r+1, …` (each SubBytes–ShiftRows–MixColumns–AddRoundKey),
`count` of them. -/
def aesMidRounds (w : List (List Nat)) : Nat → Nat → List Nat → List Nat
  | _, 0, s => s
  | r, n + 1, s =>
    aesMidRounds w (r + 1) n (addRoundKey (mixColumnsAES (shiftRowsAES (subBytesAES s))) (roundKeyAES w r))

/-- AES-256 single-block encryption. -/
def aes256Encrypt (key input : List Nat) : List Nat :=
  let w := keyWords key
  addRoundKey (shiftRowsAES (subBytesAES (aesMidRounds w 1 13 (addRoundKey input (roundKeyAES w 0)))))
    (roundKeyAES w 14)

/-! ## Key stream (crypto.go `Key`, `NewKey`, `ByteAt`, `expandTo`) -/

/-- The 128-byte `UserKey` constant from crypto.go. -/
def userKey : List Nat := [
  0x13, 0x00, 0x00, 0x00, 0x52, 0x00, 0x00, 0x00, 0x2A, 0x00, 0x00, 0x00, 0x5B, 0x00, 0x00, 0x00,
  0x08, 0x00, 0x00, 0x00, 0x02, 0x00, 0x00, 0x00, 0x10, 0x00, 0x00, 0x00, 0x60, 0x00, 0x00, 0x00,
  0x06, 0x00, 0x00, 0x00, 0x02, 0x00, 0x00, 0x00, 0x43, 0x00, 0x00, 0x00, 0x0F, 0x00, 0x00, 0x00,
  0xB4, 0x00, 0x00, 0x00, 0x4B, 0x00, 0x00, 0x00, 0x35, 0x00, 0x00, 0x00, 0x05, 0x00, 0x00, 0x00,
  0x1B, 0x00, 0x00, 0x00, 0x0A, 0x00, 0x00, 0x00, 0x5F, 0x00, 0x00, 0x00, 0x09, 0x00, 0x00, 0x00,
  0x0F, 0x00, 0x00, 0x00, 0x50, 0x00, 0x00, 0x00, 0x0C, 0x00, 0x00, 0x00, 0x1B, 0x00, 0x00, 0x00,
  0x33, 0x00, 0x00, 0x00, 0x55, 0x00, 0x00, 0x00, 0x01, 0x00, 0x00, 0x00, 0x09, 0x00, 0x00, 0x00,
  0x52, 0x00, 0x00, 0x00, 0xDE, 0x00, 0x00, 0x00, 0xC7, 0x00, 0x00, 0x00, 0x1E, 0x00, 0x00, 0x00]

/-- The trimmed 32-byte AES key built by `NewKey`:
`aesKey[i/4] = UserKey[i]` for `i = 0, 16, …, 112`, the rest zero. -/
def aesTrimmedKey : List Nat :=
  (List.range 32).map (fun j => if j % 4 = 0 then userKey.getD (4 * j) 0 else 0)

/-- One 16-byte block of the key-stream cipher (AES-256 with the trimmed key).
All `Key` values share the global `UserKey`, so the AES key is a constant. -/
def encBlock (input : List Nat) : List Nat := aes256Encrypt aesTrimmedKey input

/-- The state of crypto.go's `Key`: the IV and the lazily generated buffer. -/
structure KeyState where
  iv : List Nat
  keyData : List Nat
  deriving DecidableEq

/-- `NewKey`: empty buffer. -/
def newKey (iv : List Nat) : KeyState := ⟨iv, []⟩

/-- The first plaintext block: the IV repeated four times
(`input[j] = iv[j%4]`). -/
def ivBlock (iv : List Nat) : List Nat := (List.range 16).map (fun j => iv.getD (j % 4) 0)

/-- The last `n` elements of a list (the 16 bytes `newData[i-16:i]`). -/
def lastN (n : Nat) (l : List Nat) : List Nat := l.drop (l.length - n)

/-- The generation loop of `expandTo`: starting from the copied old data,
each iteration appends one encrypted block, chaining on the previous 16
bytes (or the IV block when nothing has been generated yet). -/
def expandLoop (iv : List Nat) (data : List Nat) : Nat → List Nat
  | 0 => data
  | r + 1 =>
    expandLoop iv (data ++ encBlock (if data.length = 0 then ivBlock iv else lastN 16 data)) r

/-- `expandTo` from crypto.go: no-op if the buffer is already long enough;
an all-zero buffer of exactly `size` bytes for the zero IV; otherwise the
buffer is extended in whole 16-byte blocks up to the next 4096-byte boundary. -/
def expandTo (k : KeyState) (size : Nat) : KeyState :=
  if size ≤ k.keyData.length then k
  else if k.iv = [0, 0, 0, 0] then ⟨k.iv, List.replicate size 0⟩
  else
    ⟨k.iv,
      (expandLoop k.iv k.keyData
        (((size + 4095) / 4096 * 4096 - k.keyData.length + 15) / 16)).take
        ((size + 4095) / 4096 * 4096)⟩

/-- `ByteAt`: expand to `index + 1` bytes and read the buffer.  The mutation
of the Go receiver is returned as the second component. -/
def byteAt (k : KeyState) (index : Nat) : Nat × KeyState :=
  let k2 := expandTo k (index + 1)
  (k2.keyData.getD index 0, k2)

/-- A sequence of `ByteAt` calls, threading the mutated key. -/
def applyCalls (k : KeyState) : List Nat → KeyState
  | [] => k
  | i :: rest => applyCalls (byteAt k i).2 rest

/-- Block `j` of the mathematical key stream for a non-zero IV:
`encBlock` chained starting from the IV block. -/
def chainBlock (iv : List Nat) : Nat → List Nat
  | 0 => encBlock (ivBlock iv)
  | j + 1 => encBlock (chainBlock iv j)

/-- Byte `n` of the single infinite key stream determined by the IV. -/
def keyStreamByte (iv : List Nat) (n : Nat) : Nat :=
  if iv = [0, 0, 0, 0] then 0 else (chainBlock iv (n / 16)).getD (n % 16) 0

/-- The first `m` bytes of the key stream. -/
def streamTake (iv : List Nat) (m : Nat) : List Nat := (List.range m).map (keyStreamByte iv)

/-- The GMS region IV (part_005 `IVForVersion "gms"`). -/
def gmsIV : List Nat := [0x4D, 0x23, 0xC7, 0x2B]

/-! ## Go strings

A Go string is modelled by its byte list.  `string([]rune)` encodes each
rune as UTF-8 after replacing invalid runes (surrogates, out-of-range) with
U+FFFD; `range` over a string decodes UTF-8, yielding one U+FFFD per
invalid byte.  Both conversions are needed because the decrypted names flow
through `string` values before `isValidWzName` inspects their runes. -/

/-- UTF-8 encoding of a valid rune. -/
def utf8Enc (r : Nat) : List Nat :=
  if r < 0x80 then [r]
  else if r < 0x800 then [0xC0 + r / 64, 0x80 + r % 64]
  else if r < 0x10000 then [0xE0 + r / 4096, 0x80 + r / 64 % 64, 0x80 + r % 64]
  else [0xF0 + r / 262144, 0x80 + r / 4096 % 64, 0x80 + r / 64 % 64, 0x80 + r % 64]

/-- Go's rune-to-string conversion of one rune: surrogates and out-of-range
values become U+FFFD. -/
def runeFix (r : Nat) : Nat :=
  if (0xD800 ≤ r ∧ r < 0xE000) ∨ 0x10FFFF < r then 0xFFFD else r

/-- `string([]rune)`: the byte list of the Go string built from runes. -/
def goStrOfRunes (rs : List Nat) : List Nat := (rs.map runeFix).flatMap utf8Enc

/-- Whether `b` is a UTF-8 continuation byte. -/
def isCont (b : Nat) : Bool := 0x80 ≤ b && b < 0xC0

/-- Go's `range` over a string: UTF-8 decoding with `utf8.DecodeRuneInString`
semantics — every invalid or truncated sequence contributes one U+FFFD for a
single consumed byte.  The per-lead-byte bounds on the first continuation
byte reject overlong encodings, surrogates and values above U+10FFFF. -/
def utf8Runes : List Nat → List Nat
  | [] => []
  | b :: rest =>
    if b < 0x80 then b :: utf8Runes rest
    else if b < 0xC2 then 0xFFFD :: utf8Runes rest
    else if b < 0xE0 then
      match rest with
      | c1 :: r2 =>
        if isCont c1 then ((b - 0xC0) * 64 + (c1 - 0x80)) :: utf8Runes r2
        else 0xFFFD :: utf8Runes (c1 :: r2)
      | [] => [0xFFFD]
    else if b < 0xF0 then
      match rest with
      | c1 :: c2 :: r3 =>
        let lo := if b = 0xE0 then 0xA0 else 0x80
        let hi := if b = 0xED then 0xA0 else 0xC0
        if (lo ≤ c1 && c1 < hi) && isCont c2 then
          ((b - 0xE0) * 4096 + (c1 - 0x80) * 64 + (c2 - 0x80)) :: utf8Runes r3
        else 0xFFFD :: utf8Runes (c1 :: c2 :: r3)
      | r => 0xFFFD :: utf8Runes r
    else if b < 0xF5 then
      match rest with
      | c1 :: c2 :: c3 :: r4 =>
        let lo := if b = 0xF0 then 0x90 else 0x80
        let hi := if b = 0xF4 then 0x90 else 0xC0
        if ((lo ≤ c1 && c1 < hi) && isCont c2) && isCont c3 then
          ((b - 0xF0) * 262144 + (c1 - 0x80) * 4096 + (c2 - 0x80) * 64 + (c3 - 0x80)) :: utf8Runes r4
        else 0xFFFD :: utf8Runes (c1 :: c2 :: c3 :: r4)
      | r => 0xFFFD :: utf8Runes r
    else 0xFFFD :: utf8Runes rest
termination_by l => l.length
decreasing_by all_goals (simp [List.length_cons]; try omega)

/-! ## String decryption (crypto.go `DecryptString`) -/

/-- `decryptUnicode`: each UTF-16LE code unit is XORed with the mask, which
starts at `0xAAAA` and is incremented (wrapping `uint16`) per character; the
resulting runes are converted to a Go string.  The key is not consulted. -/
def decryptUnicode (data : List Nat) : List Nat :=
  goStrOfRunes ((List.range (data.length / 2)).map (fun i =>
    (data.getD (2 * i) 0 + 256 * data.getD (2 * i + 1) 0) ^^^ ((0xAAAA + i) % 65536)))

/-- `decryptASCII`: each byte is XORed with the mask, which starts at `0xAA`
and is incremented (wrapping `byte`) per byte.  The key is not consulted. -/
def decryptASCII (data : List Nat) : List Nat :=
  (List.range data.length).map (fun i => data.getD i 0 ^^^ ((0xAA + i) % 256))

/-- `Key.DecryptString`: dispatch on the Unicode flag.  The receiver is
accepted for fidelity with the Go method; its state is unused. -/
def decryptString (_k : KeyState) (encrypted : List Nat) (isUnicode : Bool) : List Nat :=
  if isUnicode then decryptUnicode encrypted else decryptASCII encrypted

/-! ## Encrypted strings (part_006 `ReadEncryptedString`,
`ReadOffsetOrInlineString`) -/

/-- `ReadEncryptedString`: length indicator, then raw bytes, then
`DecryptString`.  Positive indicators (and `127` with a 4-byte length) are
UTF-16LE; negative ones (and `-128` with a 4-byte length) are ASCII. -/
def readEncryptedString (data : List Nat) (pos : Nat) (key : KeyState) :
    Except Err (List Nat) × Nat :=
  match readByte data pos with
  | (.error e, p) => (.error e, p)
  | (.ok b, p1) =>
    let li := int8Val b
    if li = 0 then (.ok [], p1)
    else
      let step : Except Err (Int × Bool) × Nat :=
        if 0 < li ∧ li < 127 then (.ok (li, true), p1)
        else if li = 127 then
          match readInt32 data p1 with
          | (.error e, p) => (.error e, p)
          | (.ok n, p2) => (.ok (n, true), p2)
        else if li < 0 ∧ -128 < li then (.ok (-li, false), p1)
        else
          match readInt32 data p1 with
          | (.error e, p) => (.error e, p)
          | (.ok n, p2) => (.ok (n, false), p2)
      match step with
      | (.error e, p) => (.error e, p)
      | (.ok (length, isUnicode), p2) =>
        if length < 0 then (.error (.badStringLength length), p2)
        else
          let byteLength := length.toNat * (if isUnicode then 2 else 1)
          match readBytes data p2 byteLength with
          | (.error e, p) => (.error e, p)
          | (.ok encrypted, p3) => (.ok (decryptString key encrypted isUnicode), p3)

/-- `ReadOffsetOrInlineString`: indicator `0x00`/`0x73` reads the string
inline; `0x01`/`0x1B` reads a signed 32-bit absolute offset, saves the
position, seeks there, reads the string, and the deferred seek restores the
saved position on every exit path. -/
def readOffsetOrInlineString (data : List Nat) (pos : Nat) (key : KeyState) :
    Except Err (List Nat) × Nat :=
  match readByte data pos with
  | (.error e, p) => (.error e, p)
  | (.ok indicator, p1) =>
    if indicator = 0x00 ∨ indicator = 0x73 then readEncryptedString data p1 key
    else if indicator = 0x01 ∨ indicator = 0x1B then
      match readInt32 data p1 with
      | (.error e, p) => (.error e, p)
      | (.ok offset, p2) =>
        let savedPos := p2
        if offset < 0 then (.error .badSeek, savedPos)
        else ((readEncryptedString data offset.toNat key).1, savedPos)
    else (.error (.badStringIndicator indicator), p1)

/-! ## Version hash and name validation (crypto.go, parser.go) -/

/-- The decimal digit string of `v` (`fmt.Sprintf` with a `%d` verb), as
ASCII byte values.  Defined with explicit fuel so that it evaluates by
kernel reduction. -/
def decDigitsAux : Nat → Nat → List Nat
  | 0, _ => []
  | fuel + 1, n => if n = 0 then [] else decDigitsAux fuel (n / 10) ++ [n % 10 + 48]

/-- Decimal representation of a natural number as ASCII bytes. -/
def decimalStr (v : Nat) : List Nat := if v = 0 then [48] else decDigitsAux v v

/-- `VersionHash`: fold `h = h·32 + ch + 1` over the characters, wrapping
`uint32`. -/
def versionHash (s : List Nat) : Nat :=
  s.foldl (fun h c => (h * 32 + c + 1) % 4294967296) 0

/-- `ObfuscateVersionHash`: XOR of the four little-endian bytes of the hash,
complemented, as a byte value. -/
def obfuscateVersionHash (h : Nat) : Nat :=
  ((h % 256) ^^^ (h / 256 % 256) ^^^ (h / 65536 % 256) ^^^ (h / 16777216 % 256)) ^^^ 255

/-- `isValidWzName`: 1–100 bytes, every rune a letter, digit, `_`, `.` or
`-`, and at least one letter. -/
def isValidWzName (s : List Nat) : Bool :=
  if s.length = 0 || 100 < s.length then false
  else
    let rs := utf8Runes s
    rs.all (fun ch =>
        ((65 ≤ ch && ch ≤ 90) || (97 ≤ ch && ch ≤ 122)) ||
        ((48 ≤ ch && ch ≤ 57) || (ch = 95 || ch = 46 || ch = 45))) &&
    rs.any (fun ch => (65 ≤ ch && ch ≤ 90) || (97 ≤ ch && ch ≤ 122))

/-! ## Header (parser.go `ReadHeader`) -/

/-- The decoded WZ header. -/
structure Header where
  magic : List Nat
  bodySize : Nat
  bodyOffset : Nat
  copyright : List Nat
  deriving DecidableEq

/-- The `PKG1` magic. -/
def wzMagic : List Nat := [0x50, 0x4B, 0x47, 0x31]

/-- The copyright extraction of `ReadHeader`: `copyrightEnd` starts at 0, is
set to the index of the first byte that is zero, below 32 or above 126, and
is replaced by the full length when it is still 0 after the loop. -/
def copyrightEnd (headerData : List Nat) : Nat :=
  let e := (headerData.findIdx? (fun b => b == 0 || decide (b < 32) || decide (126 < b))).getD 0
  if e = 0 then headerData.length else e

/-- The copyright bytes kept by `ReadHeader`. -/
def copyrightOf (headerData : List Nat) : List Nat :=
  headerData.take (copyrightEnd headerData)

/-- The specification's copyright: the longest prefix of printable-ASCII
bytes (values 32..126), terminated by the first non-printable byte or by
reaching `body_offset`. -/
def copyrightSpec (headerData : List Nat) : List Nat :=
  headerData.takeWhile (fun b => decide (32 ≤ b) && decide (b ≤ 126))

/-- `ReadHeader`: magic, body size, body offset, then the bytes up to
`bodyOffset` with the copyright extracted from them. -/
def readHeader (data : List Nat) (pos : Nat) : Except Err Header × Nat :=
  match readBytes data pos 4 with
  | (.error e, p) => (.error e, p)
  | (.ok magic, p1) =>
    if magic ≠ wzMagic then (.error .badMagic, p1)
    else
      match readU64 data p1 with
      | (.error e, p) => (.error e, p)
      | (.ok bodySize, p2) =>
        match readU32 data p2 with
        | (.error e, p) => (.error e, p)
        | (.ok bodyOffset, p3) =>
          let remaining : Int := (bodyOffset : Int) - (p3 : Int)
          if remaining < 0 then (.error .badBodyOffset, p3)
          else
            match readBytes data p3 remaining.toNat with
            | (.error e, p) => (.error e, p)
            | (.ok headerData, p4) =>
              (.ok ⟨magic, bodySize, bodyOffset, copyrightOf headerData⟩, p4)

/-! ## Version-header detection (parser.go `ReadVersionHeader`) -/

/-- `ReadVersionHeader`, entered with the stream at `bodyOffset`.  Returns
the version-header value (0 when absent) and the final stream position.
A value above `0xFF` means no header (seek back to `bodyOffset`); `0x80` is
disambiguated by re-decoding a compressed int32 at `bodyOffset`. -/
def readVersionHeader (data : List Nat) (pos bodyOffset : Nat) : Except Err Nat × Nat :=
  match readU16 data pos with
  | (.error e, p) => (.error e, p)
  | (.ok version, p1) =>
    if 0xFF < version then (.ok 0, bodyOffset)
    else if version = 0x80 then
      match readCompressedInt32 data bodyOffset with
      | (.error e, p) => (.error e, p)
      | (.ok entryCount, p2) =>
        if 0 < entryCount ∧ entryCount ≤ 0xFFFF then (.ok 0, p2)
        else (.ok version, bodyOffset + 2)
    else (.ok version, p1)

/-! ## Directory entries (parser.go `ReadDirEntryMetadata`, `ReadDir`) -/

/-- Metadata of one directory entry (part_004 `DirEntryMetadata`). -/
structure DirEntryMetadata where
  type : Nat
  name : List Nat
  fileSize : Int
  checksum : Int
  dataOffset : Nat
  deriving DecidableEq

/-- `ReadDirEntryMetadata`, with explicit fuel bounding the depth of the
`Reference` (tag 2) recursion; `none` models a recursion deeper than the
fuel (in Go, a deeper or infinite recursion).  `some (.ok none, p)` is a
skipped tag-1 entry.  The deferred seek of the tag-2 case restores the
position saved after the relative offset on both the success and the error
path. -/
def readDirEntryMetadata (bodyOffset : Nat) (key : KeyState) (vHash : Nat) (data : List Nat) :
    Nat → Nat → Option (Except Err (Option DirEntryMetadata) × Nat)
  | 0, _ => none
  | fuel + 1, pos =>
    match readByte data pos with
    | (.error e, p) => some (.error e, p)
    | (.ok t, p1) =>
      if t = 1 then some (.ok none, p1 + 10)
      else if t = 2 then
        match readInt32 data p1 with
        | (.error e, p) => some (.error e, p)
        | (.ok refOff, p2) =>
          let target : Int := (bodyOffset : Int) + refOff
          if target < 0 then some (.error .badSeek, p2)
          else
            match readDirEntryMetadata bodyOffset key vHash data fuel target.toNat with
            | none => none
            | some (res, _) => some (res, p2)
      else if t = 3 ∨ t = 4 then
        match readEncryptedString data p1 key with
        | (.error e, p) => some (.error e, p)
        | (.ok name, p2) =>
          match readCompressedInt32 data p2 with
          | (.error e, p) => some (.error e, p)
          | (.ok fsize, p3) =>
            match readCompressedInt32 data p3 with
            | (.error e, p) => some (.error e, p)
            | (.ok csum, p4) =>
              match readEncryptedOffset data p4 bodyOffset vHash with
              | (.error e, p) => some (.error e, p)
              | (.ok doff, p5) => some (.ok (some ⟨t, name, fsize, csum, doff⟩), p5)
      else some (.error (.unknownEntryType t), p1)

/-- The decoded directory (part_004 `Dir`). -/
structure Dir where
  entryCount : Int
  entriesMetadata : List DirEntryMetadata
  deriving DecidableEq

/-- The observable outcome of `ReadDir`: a directory, a returned error, or
the runtime panic raised by `make` when the entry count is negative. -/
inductive DirResult where
  | dirOk : Dir → DirResult
  | dirErr : Err → DirResult
  | makePanic : Int → DirResult
  deriving DecidableEq

/-- The entry loop of `ReadDir`: `count` iterations, each reading one entry;
skipped entries append nothing, errors abort immediately. -/
def readDirLoop (bodyOffset : Nat) (key : KeyState) (vHash : Nat) (data : List Nat) (fuel : Nat) :
    Nat → Nat → List DirEntryMetadata → Option (Except Err (List DirEntryMetadata) × Nat)
  | 0, pos, acc => some (.ok acc, pos)
  | i + 1, pos, acc =>
    match readDirEntryMetadata bodyOffset key vHash data fuel pos with
    | none => none
    | some (.error e, p) => some (.error e, p)
    | some (.ok none, p) => readDirLoop bodyOffset key vHash data fuel i p acc
    | some (.ok (some ent), p) => readDirLoop bodyOffset key vHash data fuel i p (acc ++ [ent])

/-- `ReadDir`: entry count, `make` with the count as capacity (a Go runtime
panic when it is negative), then the entry loop. -/
def readDir (bodyOffset : Nat) (key : KeyState) (vHash : Nat) (data : List Nat) (fuel pos : Nat) :
    Option (DirResult × Nat) :=
  match readCompressedInt32 data pos with
  | (.error e, p) => some (.dirErr e, p)
  | (.ok c, p1) =>
    if c < 0 then some (.makePanic c, p1)
    else
      match readDirLoop bodyOffset key vHash data fuel c.toNat p1 [] with
      | none => none
      | some (.error e, p2) => some (.dirErr e, p2)
      | some (.ok entries, p2) => some (.dirOk ⟨c, entries⟩, p2)

/-! ## Version brute force (parser.go `bruteforceVersion`, `tryVersion`) -/

/-- `tryVersion`: probe one candidate hash.  Seeks to the directory start,
requires an entry count in `(0, 1000]`, reads the first entry and validates
its decrypted name.  `none` propagates an out-of-fuel entry decode. -/
def tryVersion (data : List Nat) (bodyOffset versionHeader : Nat) (key : KeyState)
    (fuel vHash : Nat) : Option Bool :=
  let dirStart := if versionHeader ≠ 0 then bodyOffset + 2 else bodyOffset
  match readCompressedInt32 data dirStart with
  | (.error _, _) => some false
  | (.ok entryCount, p1) =>
    if entryCount ≤ 0 ∨ 1000 < entryCount then some false
    else
      match readDirEntryMetadata bodyOffset key vHash data fuel p1 with
      | none => none
      | some (.error _, _) => some false
      | some (.ok none, _) => some false
      | some (.ok (some entry), _) => some (isValidWzName entry.name)

/-- `getVersionRanges`: candidate ranges, ordered by likelihood. -/
def getVersionRanges (versionHeader : Nat) : List (Nat × Nat) :=
  if versionHeader = 0 then [(770, 779)]
  else [(200, 300), (100, 199), (80, 99), (1, 79)]

/-- The inclusive range `[lo..hi]`. -/
def rangeList (lo hi : Nat) : List Nat := List.range' lo (hi + 1 - lo)

/-- The candidate loop of `bruteforceVersion`: candidates not matching the
version header are skipped; the first one whose probe succeeds is accepted;
exhaustion is the `VersionNotFound` error. -/
def bfLoop (data : List Nat) (bodyOffset versionHeader : Nat) (key : KeyState) (fuel : Nat) :
    List Nat → Option (Except Err Nat)
  | [] => some (.error .versionNotFound)
  | v :: rest =>
    let hash := versionHash (decimalStr v)
    if versionHeader ≠ 0 ∧ obfuscateVersionHash hash ≠ versionHeader then
      bfLoop data bodyOffset versionHeader key fuel rest
    else
      match tryVersion data bodyOffset versionHeader key fuel hash with
      | none => none
      | some true => some (.ok hash)
      | some false => bfLoop data bodyOffset versionHeader key fuel rest

/-- `bruteforceVersion`: the candidate loop over the ordered ranges.  On
success the accepted hash is the value stored into `r.versionHash`. -/
def bruteforceVersion (data : List Nat) (bodyOffset versionHeader : Nat) (key : KeyState)
    (fuel : Nat) : Option (Except Err Nat) :=
  bfLoop data bodyOffset versionHeader key fuel
    ((getVersionRanges versionHeader).foldr (fun r acc => rangeList r.1 r.2 ++ acc) [])

/-! ## Specification-side definitions

These follow the wording of the specification / claims and are compared with
the source-translated definitions above. -/

/-- ASCII decryption as the specification words it: the mask starts at the
given value and is incremented by 1 after each byte. -/
def specMaskAsciiFrom (mask : Nat) : List Nat → List Nat
  | [] => []
  | b :: rest => (b ^^^ (mask % 256)) :: specMaskAsciiFrom (mask + 1) rest

/-- The UTF-16LE code units of a raw byte sequence, two bytes at a time,
little-endian. -/
def pairUnits : List Nat → List Nat
  | a :: b :: rest => (a + 256 * b) :: pairUnits rest
  | _ => []

/-- UTF-16LE decryption as the specification words it: the mask starts at the
given value and is incremented by 1 after each code unit. -/
def specMaskU16From (mask : Nat) : List Nat → List Nat
  | [] => []
  | u :: rest => (u ^^^ (mask % 65536)) :: specMaskU16From (mask + 1) rest

/-- The decryption asserted by claim C1 for ASCII strings: each byte is XORed
with the running mask and with a key-stream byte, key bytes consumed in order
from index 0. -/
def claimDecryptAscii (ks : Nat → Nat) (data : List Nat) : List Nat :=
  (List.range data.length).map (fun i => data.getD i 0 ^^^ ((0xAA + i) % 256) ^^^ ks i)

/-- The ordered candidate list as claim C4 words it. -/
def specCandidates (versionHeader : Nat) : List Nat :=
  if versionHeader = 0 then rangeList 770 779
  else rangeList 200 300 ++ rangeList 100 199 ++ rangeList 80 99 ++ rangeList 1 79

/-- The probe as the specification words it: seek to the root-directory start
(`body_offset + 2` with a version header, else `body_offset`), read an
entry-count compressed int32, require it in `(0, 1000]`, read one directory
entry, and accept when its decoded name passes `is_valid_wz_name`. -/
def specProbe (data : List Nat) (bodyOffset versionHeader : Nat) (key : KeyState)
    (fuel h : Nat) : Option Bool :=
  let dirStart := if versionHeader = 0 then bodyOffset else bodyOffset + 2
  match readCompressedInt32 data dirStart with
  | (.ok c, p1) =>
    if 0 < c ∧ c ≤ 1000 then
      match readDirEntryMetadata bodyOffset key h data fuel p1 with
      | some (.ok (some e), _) => some (isValidWzName e.name)
      | some (.ok none, _) => some false
      | some (.error _, _) => some false
      | none => none
    else some false
  | (.error _, _) => some false

/-- The search as claim C4 words it: accept the first candidate `v` whose
hash `h` satisfies (header absent or `obf(h)` equals the stored header) and
whose probe succeeds; fail with `VersionNotFound` when no candidate
qualifies. -/
def specBfSearch (data : List Nat) (bodyOffset versionHeader : Nat) (key : KeyState)
    (fuel : Nat) : List Nat → Option (Except Err Nat)
  | [] => some (.error .versionNotFound)
  | v :: rest =>
    let h := versionHash (decimalStr v)
    if versionHeader = 0 ∨ obfuscateVersionHash h = versionHeader then
      match specProbe data bodyOffset versionHeader key fuel h with
      | none => none
      | some true => some (.ok h)
      | some false => specBfSearch data bodyOffset versionHeader key fuel rest
    else specBfSearch data bodyOffset versionHeader key fuel rest

/-- Brute force as claim C4 words it. -/
def specBruteforce (data : List Nat) (bodyOffset versionHeader : Nat) (key : KeyState)
    (fuel : Nat) : Option (Except Err Nat) :=
  specBfSearch data bodyOffset versionHeader key fuel (specCandidates versionHeader)

/-- One hop of the `Reference` (tag 2) chain: defined exactly when the entry
at `pos` is a tag-2 entry whose relative offset reads successfully and whose
seek target is non-negative; the value is the target position. -/
def refStep (bodyOffset : Nat) (data : List Nat) (pos : Nat) : Option Nat :=
  match readByte data pos with
  | (.error _, _) => none
  | (.ok t, p1) =>
    if t = 2 then
      match readInt32 data p1 with
      | (.error _, _) => none
      | (.ok refOff, _) =>
        let target : Int := (bodyOffset : Int) + refOff
        if target < 0 then none else some target.toNat
    else none

/-- Whether the `Reference` chain starting at `pos` leaves the tag-2 case
within `n` hops. -/
def chainStops (bodyOffset : Nat) (data : List Nat) : Nat → Nat → Bool
  | 0, pos => (refStep bodyOffset data pos).isNone
  | n + 1, pos =>
    match refStep bodyOffset data pos with
    | none => true
    | some q => chainStops bodyOffset data n q

/-- Termination of the entry decoder at a position: some fuel suffices. -/
def EntryDecodeTerminates (bodyOffset : Nat) (key : KeyState) (vHash : Nat)
    (data : List Nat) (pos : Nat) : Prop :=
  ∃ fuel r, readDirEntryMetadata bodyOffset key vHash data fuel pos = some r

/-- Reachability between states of the `ReadDir` entry loop by successful
entry decodes (skips and appended entries). -/
inductive LoopSteps (bodyOffset : Nat) (key : KeyState) (vHash : Nat) (data : List Nat)
    (fuel : Nat) : Nat → Nat → List DirEntryMetadata → Nat → Nat → List DirEntryMetadata → Prop where
  | refl (n pos acc) : LoopSteps bodyOffset key vHash data fuel n pos acc n pos acc
  | skip {n pos acc m q acc2 p} :
      readDirEntryMetadata bodyOffset key vHash data fuel pos = some (.ok none, p) →
      LoopSteps bodyOffset key vHash data fuel n p acc m q acc2 →
      LoopSteps bodyOffset key vHash data fuel (n + 1) pos acc m q acc2
  | push {n pos acc m q acc2 p ent} :
      readDirEntryMetadata bodyOffset key vHash data fuel pos = some (.ok (some ent), p) →
      LoopSteps bodyOffset key vHash data fuel n p (acc ++ [ent]) m q acc2 →
      LoopSteps bodyOffset key vHash data fuel (n + 1) pos acc m q acc2

/-- The invariant of the key state: the buffer is a prefix of the infinite
key stream of its IV, and for a non-zero IV the buffer length is a multiple
of 16 (whole blocks). -/
def GoodKey (k : KeyState) : Prop :=
  k.keyData = streamTake k.iv k.keyData.length ∧
  (k.iv ≠ [0, 0, 0, 0] → k.keyData.length % 16 = 0)

/-! # Theorems -/

/-- FIPS-197 appendix C.3 test vector for AES-256, checking the cipher model. -/
theorem aes256Encrypt_fips_vector :
    aes256Encrypt (List.range 32)
      [0x00, 0x11, 0x22, 0x33, 0x44, 0x55, 0x66, 0x77, 0x88, 0x99, 0xaa, 0xbb, 0xcc, 0xdd, 0xee, 0xff] =
      [0x8e, 0xa2, 0xb7, 0xca, 0x51, 0x67, 0x45, 0xbf, 0xea, 0xfc, 0x49, 0x90, 0x4b, 0x49, 0x60, 0x89] := by
  decide

theorem and_31_eq_mod (x : Nat) : x &&& 31 = x % 32 := by
  have h := Nat.and_pow_two_sub_one_eq_mod x 5
  norm_num at h
  exact h

theorem rotateLeft32_eq_rotlSpec (x n : Nat) (hn : n < 32) :
    rotateLeft32 x n = rotlSpec x n := by
  unfold rotateLeft32 rotlSpec
  rw [Nat.mod_eq_of_lt hn, Nat.shiftLeft_eq, Nat.shiftRight_eq_div_pow]

/-- Claim C3: `DecryptOffset` computes exactly the specification's formula
(wrapping 32-bit arithmetic, left-rotation count `x & 0x1F` taken modulo 32),
and `ReadEncryptedOffset` uses as `P` the stream position at which the 4-byte
little-endian value `E` begins. -/
theorem decryptOffset_matches_spec :
    (∀ p b h e, decryptOffset p b h e = decryptOffsetSpec p b h e) ∧
    (∀ data pos b h e p1, readU32 data pos = (.ok e, p1) →
      readEncryptedOffset data pos b h = (.ok (decryptOffsetSpec pos b h e), p1)) := by
  have hmain : ∀ p b h e, decryptOffset p b h e = decryptOffsetSpec p b h e := by
    intro p b h e
    simp only [decryptOffset, decryptOffsetSpec]
    rw [and_31_eq_mod]
    rw [rotateLeft32_eq_rotlSpec _ _ (Nat.mod_lt _ (by norm_num))]
  refine ⟨hmain, ?_⟩
  intro data pos b h e p1 hread
  simp only [readEncryptedOffset, hread]
  rw [hmain]

/-- Witness for C3: a concrete 4-byte stream, evaluated end to end. -/
theorem decryptOffset_matches_spec_witness :
    readU32 [7, 0, 0, 0] 0 = (.ok 7, 4) ∧
    readEncryptedOffset [7, 0, 0, 0] 0 16 95 = (.ok (decryptOffsetSpec 0 16 95 7), 4) := by
  refine ⟨by decide, ?_⟩
  exact decryptOffset_matches_spec.2 [7, 0, 0, 0] 0 16 95 7 4 (by decide)

/-- Claim C2 (code bug): an archive with `body_offset = 16` whose body starts
`80 00 01 00 00` peeks `0x80`, re-decodes the compressed int32 to `256 ∈
(0, 0xFFFF]`, classifies the archive as having no version header — but
leaves the stream at `body_offset + 5 = 21` instead of rewinding to
`body_offset = 16`. -/
theorem readVersionHeader_no_rewind_bug :
    readVersionHeader (List.replicate 16 0 ++ [0x80, 0x00, 0x01, 0x00, 0x00]) 16 16 =
      (.ok 0, 21) ∧
    readVersionHeader (List.replicate 16 0 ++ [0x80, 0x00, 0x01, 0x00, 0x00]) 16 16 ≠
      (.ok 0, 16) := by
  constructor
  · decide
  · decide

/-- Claim C8 (code bug): when the first byte of the copyright region is
non-printable, `ReadHeader` keeps the whole region (the `copyrightEnd == 0`
fallback fires), whereas the specification's copyright — the longest
printable-ASCII prefix — is empty. -/
theorem readHeader_copyright_bug :
    readHeader ([0x50, 0x4B, 0x47, 0x31] ++ List.replicate 8 0 ++ [18, 0, 0, 0] ++ [0x00, 0x41]) 0 =
      (.ok ⟨wzMagic, 0, 18, [0x00, 0x41]⟩, 18) ∧
    copyrightSpec [0x00, 0x41] = [] := by
  constructor
  · decide
  · decide

/-- Claim C10 counterexample: the stream `80 FF FF FF FF` decodes the entry
count `-1`, which `ReadDir` passes unchecked as the capacity of `make`,
raising a runtime panic (process abort) instead of returning a directory or
an error. -/
theorem readDir_negative_count_panics :
    readDir 0 (newKey [0, 0, 0, 0]) 0 [0x80, 0xFF, 0xFF, 0xFF, 0xFF] 1 0 =
      some (.makePanic (-1), 5) := by
  decide

/-- Claim C1 counterexample: with the GMS key, the parser decrypts the
one-byte ASCII string `00` (stream `FF 00`) to `AA` using the mask alone,
while the claimed mask-and-key decryption yields `AA XOR 96 = 3C`, because
the first GMS key-stream byte is `0x96 ≠ 0`. -/
theorem decryptString_key_xor_counterexample :
    readEncryptedString [0xFF, 0x00] 0 (newKey gmsIV) = (.ok [0xAA], 2) ∧
    claimDecryptAscii (keyStreamByte gmsIV) [0x00] = [0x3C] ∧
    (0xAA : Nat) ≠ 0x3C := by
  refine ⟨by decide, by decide, by decide⟩

/-- Claim C7: on indicator `0x01` or `0x1B`, `ReadOffsetOrInlineString`
reads a signed 32-bit absolute offset, reads the encrypted string at that
offset, and finishes at the saved position (just after the indicator and
offset bytes) on every exit path — the error outcome of the inner read
included. -/
theorem readOffsetOrInlineString_restores_position
    (data : List Nat) (pos : Nat) (key : KeyState) (i : Nat) (o : Int) (p2 : Nat)
    (hb : readByte data pos = (.ok i, pos + 1))
    (hi : i = 0x01 ∨ i = 0x1B)
    (ho : readInt32 data (pos + 1) = (.ok o, p2)) :
    readOffsetOrInlineString data pos key =
      ((if o < 0 then .error .badSeek else (readEncryptedString data o.toNat key).1), p2) := by
  simp only [readOffsetOrInlineString, hb, ho]
  rcases hi with h1 | h1 <;> subst h1 <;>
    by_cases h2 : o < 0 <;> simp [h2]

/-- Witness for C7: the inner read at offset 7 fails past the end of the
stream, and the final position is still the saved position 5. -/
theorem readOffsetOrInlineString_restores_position_witness :
    readOffsetOrInlineString [1, 7, 0, 0, 0] 0 (newKey [0, 0, 0, 0]) =
      (.error .shortRead, 5) := by
  have h := readOffsetOrInlineString_restores_position [1, 7, 0, 0, 0] 0
    (newKey [0, 0, 0, 0]) 1 7 5 (by decide) (Or.inl rfl) (by decide)
  rw [h]
  decide

/-- Claim C5 counterexample: a tag-2 `Reference` entry at position 16 whose
relative offset 0 makes it its own target.  The decoder re-enters itself at
the same position with the same state, so no amount of fuel makes it return:
the Go recursion loops forever. -/
theorem readDirEntryMetadata_reference_cycle_diverges :
    ¬ EntryDecodeTerminates 16 (newKey [0, 0, 0, 0]) 0
      (List.replicate 16 0 ++ [2, 0, 0, 0, 0]) 16 := by
  intro hterm
  obtain ⟨fuel, r, hr⟩ := hterm
  have step : ∀ n, readDirEntryMetadata 16 (newKey [0, 0, 0, 0]) 0
      (List.replicate 16 0 ++ [2, 0, 0, 0, 0]) (n + 1) 16 =
      (match readDirEntryMetadata 16 (newKey [0, 0, 0, 0]) 0
        (List.replicate 16 0 ++ [2, 0, 0, 0, 0]) n 16 with
       | none => none
       | some (res, _) => some (res, 21)) := fun _ => rfl
  have allNone : ∀ f, readDirEntryMetadata 16 (newKey [0, 0, 0, 0]) 0
      (List.replicate 16 0 ++ [2, 0, 0, 0, 0]) f 16 = none := by
    intro f
    induction f with
    | zero => rfl
    | succ n ih => rw [step n, ih]
  rw [allNone fuel] at hr
  exact Option.noConfusion hr

theorem readDirEntryMetadata_ref_unfold (B : Nat) (key : KeyState) (vH : Nat)
    (data : List Nat) (fuel pos pb : Nat) (refOff : Int) (pi : Nat)
    (hb : readByte data pos = (.ok 2, pb))
    (hi : readInt32 data pb = (.ok refOff, pi))
    (hneg : ¬ ((B : Int) + refOff) < 0) :
    readDirEntryMetadata B key vH data (fuel + 1) pos =
      (match readDirEntryMetadata B key vH data fuel ((B : Int) + refOff).toNat with
       | none => none
       | some (res, _) => some (res, pi)) := by
  simp only [readDirEntryMetadata, hb, hi]
  norm_num [hneg]

theorem entryDecode_isSome_of_refStep_none (B : Nat) (key : KeyState) (vH : Nat)
    (data : List Nat) (pos f : Nat) (h : refStep B data pos = none) :
    (readDirEntryMetadata B key vH data (f + 1) pos).isSome := by
  rcases hb : readByte data pos with ⟨rb, pb⟩
  cases rb with
  | error e => simp [readDirEntryMetadata, hb]
  | ok t =>
    by_cases ht1 : t = 1
    · simp [readDirEntryMetadata, hb, ht1]
    · by_cases ht2 : t = 2
      · subst ht2
        simp only [refStep, hb] at h
        norm_num at h
        rcases hi : readInt32 data pb with ⟨ri, pi⟩
        cases ri with
        | error e => simp [readDirEntryMetadata, hb, hi]
        | ok refOff =>
          simp only [hi] at h
          by_cases hneg : ((B : Int) + refOff) < 0
          · simp [readDirEntryMetadata, hb, hi, hneg]
          · rw [if_neg hneg] at h
            exact Option.noConfusion h
      · by_cases ht34 : t = 3 ∨ t = 4
        · simp only [readDirEntryMetadata, hb, if_neg ht1, if_neg ht2, if_pos ht34]
          rcases h1 : readEncryptedString data pb key with ⟨r1, q1⟩
          cases r1 with
          | error e => simp [h1]
          | ok name =>
            simp only [h1]
            rcases h2 : readCompressedInt32 data q1 with ⟨r2, q2⟩
            cases r2 with
            | error e => simp [h2]
            | ok fsize =>
              simp only [h2]
              rcases h3 : readCompressedInt32 data q2 with ⟨r3, q3⟩
              cases r3 with
              | error e => simp [h3]
              | ok csum =>
                simp only [h3]
                rcases h4 : readEncryptedOffset data q3 B vH with ⟨r4, q4⟩
                cases r4 with
                | error e => simp [h4]
                | ok doff => simp [h4]
        · simp [readDirEntryMetadata, hb, ht1, ht2, ht34]

/-- Claim C5 amended: the entry decoder terminates (returning an entry, a
skip, or an error) whenever the chain of `Reference` targets starting at the
decode position leaves the tag-2 case within finitely many hops; fuel one
more than the hop count suffices, and so the decode terminates. -/
theorem readDirEntryMetadata_terminates_of_chainStops
    (B : Nat) (key : KeyState) (vH : Nat) (data : List Nat) (pos n : Nat)
    (h : chainStops B data n pos = true) :
    (readDirEntryMetadata B key vH data (n + 1) pos).isSome ∧
    EntryDecodeTerminates B key vH data pos := by
  have main : ∀ m q, chainStops B data m q = true →
      (readDirEntryMetadata B key vH data (m + 1) q).isSome := by
    intro m
    induction m with
    | zero =>
      intro q hq
      rw [chainStops, Option.isNone_iff_eq_none] at hq
      exact entryDecode_isSome_of_refStep_none B key vH data q 0 hq
    | succ m ih =>
      intro q hq
      rw [chainStops] at hq
      rcases hr : refStep B data q with _ | q2
      · exact entryDecode_isSome_of_refStep_none B key vH data q (m + 1) hr
      · simp only [hr] at hq
        obtain ⟨r, hrq⟩ := Option.isSome_iff_exists.mp (ih q2 hq)
        rcases hb : readByte data q with ⟨rb, pb⟩
        cases rb with
        | error e => simp [readDirEntryMetadata, hb]
        | ok t =>
          simp only [refStep, hb] at hr
          by_cases ht2 : t = 2
          · subst ht2
            norm_num at hr
            rcases hi : readInt32 data pb with ⟨ri, pi⟩
            cases ri with
            | error e => simp [hi] at hr
            | ok refOff =>
              simp only [hi] at hr
              by_cases hneg : ((B : Int) + refOff) < 0
              · rw [if_pos hneg] at hr; exact Option.noConfusion hr
              · rw [if_neg hneg] at hr
                have hq2 : ((B : Int) + refOff).toNat = q2 := Option.some.inj hr
                rcases r with ⟨res, rp⟩
                rw [readDirEntryMetadata_ref_unfold B key vH data (m + 1) q pb refOff pi hb hi hneg,
                  hq2, hrq]
                rfl
          · rw [if_neg ht2] at hr; exact Option.noConfusion hr
  refine ⟨main n pos h, ?_⟩
  have hs := main n pos h
  rw [Option.isSome_iff_exists] at hs
  obtain ⟨r, hrr⟩ := hs
  exact ⟨n + 1, r, hrr⟩

/-- Witness for the amended C5: a tag-1 skip entry is not a reference, its
chain stops immediately, and the decoder returns with fuel 1. -/
theorem readDirEntryMetadata_terminates_of_chainStops_witness :
    chainStops 0 [1] 0 0 = true ∧
    (readDirEntryMetadata 0 (newKey [0, 0, 0, 0]) 0 [1] 1 0).isSome := by
  refine ⟨by decide, ?_⟩
  exact (readDirEntryMetadata_terminates_of_chainStops 0 (newKey [0, 0, 0, 0]) 0 [1] 0 0
    (by decide)).1

theorem readDirLoop_of_loopSteps (B : Nat) (key : KeyState) (vH : Nat) (data : List Nat)
    (fuel : Nat) {n pos acc m q acc2}
    (h : LoopSteps B key vH data fuel n pos acc m q acc2) :
    readDirLoop B key vH data fuel n pos acc = readDirLoop B key vH data fuel m q acc2 := by
  induction h with
  | refl => rfl
  | skip hread _ ih =>
    simp only [readDirLoop, hread]
    exact ih
  | push hread _ ih =>
    simp only [readDirLoop, hread]
    exact ih

/-- Claim C6: after any number of successfully decoded entries, a failing
entry decode makes `ReadDir` return that error at once; the error outcome
carries no directory value, so a partially filled directory is never
returned. -/
theorem readDir_aborts_on_entry_error
    (B : Nat) (key : KeyState) (vH : Nat) (data : List Nat) (fuel pos : Nat)
    (c : Int) (p0 m q : Nat) (acc2 : List DirEntryMetadata) (e : Err) (pe : Nat)
    (hcount : readCompressedInt32 data pos = (.ok c, p0))
    (hc : 0 ≤ c)
    (hsteps : LoopSteps B key vH data fuel c.toNat p0 [] (m + 1) q acc2)
    (hfail : readDirEntryMetadata B key vH data fuel q = some (.error e, pe)) :
    readDir B key vH data fuel pos = some (.dirErr e, pe) := by
  simp only [readDir, hcount]
  rw [if_neg (not_lt.mpr hc)]
  rw [readDirLoop_of_loopSteps B key vH data fuel hsteps]
  simp only [readDirLoop, hfail]

/-- Witness for C6: a two-entry directory whose first entry decodes and whose
second entry has the unknown tag 7; `ReadDir` returns `UnknownEntryType`. -/
theorem readDir_aborts_on_entry_error_witness :
    readDir 0 (newKey [0, 0, 0, 0]) 0 [2, 4, 0xFF, 0xE9, 5, 0, 0, 0, 0, 0, 7] 5 0 =
      some (.dirErr (.unknownEntryType 7), 11) := by
  have h1 : readDirEntryMetadata 0 (newKey [0, 0, 0, 0]) 0
      [2, 4, 0xFF, 0xE9, 5, 0, 0, 0, 0, 0, 7] 5 1 =
      some (.ok (some ⟨4, [0x43], 5, 0, decryptOffset 6 0 0 0⟩), 10) := by decide
  exact readDir_aborts_on_entry_error 0 (newKey [0, 0, 0, 0]) 0
    [2, 4, 0xFF, 0xE9, 5, 0, 0, 0, 0, 0, 7] 5 0 2 1 0 10 _ (.unknownEntryType 7) 11
    (by decide) (by decide)
    (LoopSteps.push h1 (LoopSteps.refl 1 10 _)) (by decide)

/-- Claim C10 amended: whenever the leading entry count decodes to a
nonnegative value, `ReadDir` never panics — every returned outcome is a
directory value or an error. -/
theorem readDir_no_panic_on_nonneg_count
    (B : Nat) (key : KeyState) (vH : Nat) (data : List Nat) (fuel pos : Nat)
    (c : Int) (p0 : Nat)
    (hcount : readCompressedInt32 data pos = (.ok c, p0))
    (hc : 0 ≤ c)
    (r : DirResult × Nat)
    (hr : readDir B key vH data fuel pos = some r) :
    (∃ d p, r = (.dirOk d, p)) ∨ (∃ e p, r = (.dirErr e, p)) := by
  simp only [readDir, hcount] at hr
  rw [if_neg (not_lt.mpr hc)] at hr
  rcases hl : readDirLoop B key vH data fuel c.toNat p0 [] with _ | ⟨res, p2⟩
  · simp [hl] at hr
  · simp only [hl] at hr
    cases res with
    | error e => exact Or.inr ⟨e, p2, (Option.some.inj hr).symm⟩
    | ok entries => exact Or.inl ⟨⟨c, entries⟩, p2, (Option.some.inj hr).symm⟩

/-- Witness for the amended C10: an empty directory (count 0) returns a
directory value. -/
theorem readDir_no_panic_on_nonneg_count_witness :
    readDir 0 (newKey [0, 0, 0, 0]) 0 [0] 1 0 = some (.dirOk ⟨0, []⟩, 1) ∧
    ((∃ d p, ((DirResult.dirOk ⟨0, []⟩, 1) : DirResult × Nat) = (.dirOk d, p)) ∨
      (∃ e p, ((DirResult.dirOk ⟨0, []⟩, 1) : DirResult × Nat) = (.dirErr e, p))) := by
  refine ⟨by decide, ?_⟩
  exact readDir_no_panic_on_nonneg_count 0 (newKey [0, 0, 0, 0]) 0 [0] 1 0 0 1
    (by decide) (by decide) _ (by decide)

theorem maskAscii_range_eq_specFrom (data : List Nat) :
    ∀ m, (List.range data.length).map (fun i => data.getD i 0 ^^^ ((m + i) % 256)) =
      specMaskAsciiFrom m data := by
  induction data with
  | nil => intro m; rfl
  | cons b rest ih =>
    intro m
    rw [List.length_cons, List.range_succ_eq_map, List.map_cons, List.map_map,
      specMaskAsciiFrom]
    refine congrArg₂ List.cons ?_ ?_
    · rfl
    · rw [← ih (m + 1)]
      apply List.map_congr_left
      intro i _
      show (b :: rest).getD (Nat.succ i) 0 ^^^ ((m + Nat.succ i) % 256) =
        rest.getD i 0 ^^^ ((m + 1 + i) % 256)
      have h2 : (b :: rest).getD (Nat.succ i) 0 = rest.getD i 0 := rfl
      rw [h2]
      congr 1
      omega

theorem maskU16_range_eq_specFrom (N : Nat) :
    ∀ data : List Nat, data.length ≤ N → ∀ m,
      (List.range (data.length / 2)).map (fun i =>
        (data.getD (2 * i) 0 + 256 * data.getD (2 * i + 1) 0) ^^^ ((m + i) % 65536)) =
      specMaskU16From m (pairUnits data) := by
  induction N with
  | zero =>
    intro data h m
    cases data with
    | nil => rfl
    | cons a rest => simp at h
  | succ N ih =>
    intro data h m
    match data with
    | [] => rfl
    | [a] => simp [pairUnits, specMaskU16From]
    | a :: b :: rest =>
      have hl : (a :: b :: rest).length / 2 = rest.length / 2 + 1 := by
        simp only [List.length_cons]
        omega
      rw [hl, List.range_succ_eq_map, List.map_cons, List.map_map, pairUnits, specMaskU16From]
      refine congrArg₂ List.cons ?_ ?_
      · rfl
      · have hrest : rest.length ≤ N := by
          simp only [List.length_cons] at h
          omega
        rw [← ih rest hrest (m + 1)]
        apply List.map_congr_left
        intro i _
        show ((a :: b :: rest).getD (2 * Nat.succ i) 0 +
            256 * (a :: b :: rest).getD (2 * Nat.succ i + 1) 0) ^^^ ((m + Nat.succ i) % 65536) =
          (rest.getD (2 * i) 0 + 256 * rest.getD (2 * i + 1) 0) ^^^ ((m + 1 + i) % 65536)
        have h2 : ∀ j d, (a :: b :: rest).getD (j + 2) d = rest.getD j d := fun j d => rfl
        have e2 : 2 * Nat.succ i + 1 = (2 * i + 1) + 2 := by omega
        have e1 : 2 * Nat.succ i = 2 * i + 2 := by omega
        rw [e2, e1, h2, h2]
        congr 1
        omega

/-- Claim C1 amended: every string the parser decrypts is produced from the
raw bytes with the running mask alone (`0xAAAA`/`0xAA`, incremented per
unit); the key stream is never consulted — `DecryptString` yields identical
results under any two keys. -/
theorem decryptString_mask_only :
    (∀ (k1 k2 : KeyState) (data : List Nat) (u : Bool),
      decryptString k1 data u = decryptString k2 data u) ∧
    (∀ data : List Nat, decryptASCII data = specMaskAsciiFrom 0xAA data) ∧
    (∀ data : List Nat,
      decryptUnicode data = goStrOfRunes (specMaskU16From 0xAAAA (pairUnits data))) := by
  refine ⟨fun k1 k2 data u => rfl, ?_, ?_⟩
  · intro data
    exact maskAscii_range_eq_specFrom data 0xAA
  · intro data
    exact congrArg goStrOfRunes (maskU16_range_eq_specFrom data.length data le_rfl 0xAAAA)

theorem tryVersion_eq_specProbe (data : List Nat) (B vh : Nat) (key : KeyState)
    (fuel h : Nat) :
    tryVersion data B vh key fuel h = specProbe data B vh key fuel h := by
  have hds : (if vh ≠ 0 then B + 2 else B) = (if vh = 0 then B else B + 2) := by
    by_cases hv : vh = 0 <;> simp [hv]
  unfold tryVersion specProbe
  rw [hds]
  rcases hc : readCompressedInt32 data (if vh = 0 then B else B + 2) with ⟨rc, p1⟩
  cases rc with
  | error e => simp only [hc]
  | ok c =>
    simp only [hc]
    by_cases hcc : 0 < c ∧ c ≤ 1000
    · rw [if_pos hcc, if_neg (by omega : ¬(c ≤ 0 ∨ 1000 < c))]
      rcases hm : readDirEntryMetadata B key h data fuel p1 with _ | ⟨res, pp⟩
      · rfl
      · rcases res with e | opt
        · rfl
        · rcases opt with _ | ent <;> rfl
    · rw [if_neg hcc, if_pos (by omega : c ≤ 0 ∨ 1000 < c)]

theorem bfCandidates_eq_specCandidates (vh : Nat) :
    (getVersionRanges vh).foldr (fun r acc => rangeList r.1 r.2 ++ acc) [] =
      specCandidates vh := by
  by_cases hv : vh = 0 <;>
    simp [getVersionRanges, specCandidates, hv, List.foldr, List.append_nil]

theorem bfLoop_eq_specBfSearch (data : List Nat) (B vh : Nat) (key : KeyState)
    (fuel : Nat) (l : List Nat) :
    bfLoop data B vh key fuel l = specBfSearch data B vh key fuel l := by
  induction l with
  | nil => rfl
  | cons v rest ih =>
    simp only [bfLoop, specBfSearch]
    by_cases hq : vh = 0 ∨ obfuscateVersionHash (versionHash (decimalStr v)) = vh
    · rw [if_neg (by tauto), if_pos hq, tryVersion_eq_specProbe]
      rcases hp : specProbe data B vh key fuel (versionHash (decimalStr v)) with _ | b
      · rfl
      · cases b
        · exact ih
        · rfl
    · rw [if_pos (by tauto), if_neg hq]
      exact ih

/-- Claim C4: brute-force version resolution equals the specification's
search — candidates scanned in the ordered ranges `[770..779]` (no version
header) or `[200..300], [100..199], [80..99], [1..79]` (header present),
skipping those whose obfuscated hash mismatches a present header, accepting
the first whose probe (entry count in `(0, 1000]`, first entry name passing
`is_valid_wz_name`) succeeds, and failing with `VersionNotFound` when no
candidate qualifies. -/
theorem bruteforceVersion_matches_spec (data : List Nat) (B vh : Nat) (key : KeyState)
    (fuel : Nat) :
    bruteforceVersion data B vh key fuel = specBruteforce data B vh key fuel := by
  unfold bruteforceVersion specBruteforce
  rw [bfCandidates_eq_specCandidates vh]
  exact bfLoop_eq_specBfSearch data B vh key fuel (specCandidates vh)

theorem encBlock_length (l : List Nat) : (encBlock l).length = 16 := by
  simp [encBlock, aes256Encrypt, addRoundKey]

theorem chainBlock_length (iv : List Nat) (j : Nat) : (chainBlock iv j).length = 16 := by
  cases j <;> simp [chainBlock, encBlock_length]

theorem streamTake_length (iv : List Nat) (m : Nat) : (streamTake iv m).length = m := by
  simp [streamTake]

theorem streamTake_getD (iv : List Nat) {n m : Nat} (h : n < m) :
    (streamTake iv m).getD n 0 = keyStreamByte iv n := by
  unfold streamTake
  have hlen : n < ((List.range m).map (keyStreamByte iv)).length := by simp [h]
  rw [List.getD_eq_getElem _ _ hlen, List.getElem_map, List.getElem_range]

theorem streamTake_take (iv : List Nat) {m M : Nat} (h : m ≤ M) :
    (streamTake iv M).take m = streamTake iv m := by
  unfold streamTake
  rw [← List.map_take, List.take_range, inf_eq_left.mpr h]

theorem map_range_getD (l : List Nat) :
    (List.range l.length).map (fun i => l.getD i 0) = l := by
  induction l with
  | nil => rfl
  | cons a t ih =>
    rw [List.length_cons, List.range_succ_eq_map, List.map_cons, List.map_map]
    refine congrArg₂ List.cons rfl ?_
    conv_rhs => rw [← ih]
    apply List.map_congr_left
    intro i _
    rfl

theorem streamTake_succ_block (iv : List Nat) (hiv : iv ≠ [0, 0, 0, 0]) (j : Nat) :
    streamTake iv (16 * (j + 1)) = streamTake iv (16 * j) ++ chainBlock iv j := by
  have h16 : 16 * (j + 1) = 16 * j + 16 := by ring
  rw [h16]
  unfold streamTake
  rw [List.range_add, List.map_append, List.map_map]
  congr 1
  conv_rhs => rw [← map_range_getD (chainBlock iv j)]
  rw [chainBlock_length]
  apply List.map_congr_left
  intro i hi
  have hi16 : i < 16 := List.mem_range.mp hi
  show keyStreamByte iv (16 * j + i) = (chainBlock iv j).getD i 0
  rw [keyStreamByte, if_neg hiv]
  have hdiv : (16 * j + i) / 16 = j := by omega
  have hmod : (16 * j + i) % 16 = i := by omega
  rw [hdiv, hmod]

theorem streamTake_zeroIV (m : Nat) :
    streamTake [0, 0, 0, 0] m = List.replicate m 0 := by
  unfold streamTake keyStreamByte
  have hfun : (fun n => if ([0, 0, 0, 0] : List Nat) = [0, 0, 0, 0] then 0
      else (chainBlock [0, 0, 0, 0] (n / 16)).getD (n % 16) 0) = fun _ : Nat => (0 : Nat) := by
    funext n
    rw [if_pos rfl]
  rw [hfun, List.map_const', List.length_range]

theorem expandLoop_stream (iv : List Nat) (hiv : iv ≠ [0, 0, 0, 0]) :
    ∀ (r j : Nat), expandLoop iv (streamTake iv (16 * j)) r = streamTake iv (16 * (j + r)) := by
  intro r
  induction r with
  | zero => intro j; rfl
  | succ n ih =>
    intro j
    rw [expandLoop]
    rcases Nat.eq_zero_or_pos j with hj | hj
    · subst hj
      have h0 : streamTake iv (16 * 0) = [] := rfl
      rw [h0]
      simp only [List.nil_append, List.length_nil, if_true]
      have hx : encBlock (ivBlock iv) = streamTake iv (16 * 1) := by
        rw [streamTake_succ_block iv hiv 0]
        rfl
      rw [hx, ih 1]
      congr 1
      ring
    · obtain ⟨j2, rfl⟩ : ∃ j2, j = j2 + 1 := ⟨j - 1, by omega⟩
      have hne : ¬ ((streamTake iv (16 * (j2 + 1))).length = 0) := by
        rw [streamTake_length]; omega
      rw [if_neg hne]
      have hlast : lastN 16 (streamTake iv (16 * (j2 + 1))) = chainBlock iv j2 := by
        rw [streamTake_succ_block iv hiv j2]
        unfold lastN
        rw [List.length_append, streamTake_length, chainBlock_length]
        have he : 16 * j2 + 16 - 16 = (streamTake iv (16 * j2)).length := by
          rw [streamTake_length]
          omega
        rw [he, List.drop_left]
      rw [hlast]
      have henc : encBlock (chainBlock iv j2) = chainBlock iv (j2 + 1) := rfl
      rw [henc, ← streamTake_succ_block iv hiv (j2 + 1)]
      have hnum : (16 : Nat) * (j2 + 1 + 1) = 16 * (j2 + 2) := by ring
      rw [hnum, ih (j2 + 2)]
      congr 1
      ring

theorem expandTo_goodKey {k : KeyState} (hk : GoodKey k) (size : Nat) :
    GoodKey (expandTo k size) ∧ (expandTo k size).iv = k.iv ∧
      size ≤ (expandTo k size).keyData.length := by
  unfold expandTo
  by_cases h1 : size ≤ k.keyData.length
  · rw [if_pos h1]
    exact ⟨hk, rfl, h1⟩
  · rw [if_neg h1]
    by_cases h2 : k.iv = [0, 0, 0, 0]
    · rw [if_pos h2]
      refine ⟨⟨?_, ?_⟩, rfl, ?_⟩
      · show List.replicate size 0 = streamTake k.iv (List.replicate size 0).length
        rw [List.length_replicate, h2, streamTake_zeroIV]
      · intro hne
        exact absurd h2 hne
      · show size ≤ (List.replicate size 0).length
        rw [List.length_replicate]
    · rw [if_neg h2]
      obtain ⟨j, hj⟩ : ∃ j, k.keyData.length = 16 * j := by
        have hdvd := Nat.dvd_of_mod_eq_zero (hk.2 h2)
        exact ⟨k.keyData.length / 16, (Nat.mul_div_cancel' hdvd).symm⟩
      have hdata : k.keyData = streamTake k.iv (16 * j) := by
        rw [← hj]
        exact hk.1
      have hsize : 16 * j < size := by omega
      have hszN : size ≤ (size + 4095) / 4096 * 4096 := by omega
      have hNmod : ((size + 4095) / 4096 * 4096) % 16 = 0 := by omega
      rw [hdata, streamTake_length,
        expandLoop_stream k.iv h2 (((size + 4095) / 4096 * 4096 - 16 * j + 15) / 16) j]
      have hNle : (size + 4095) / 4096 * 4096 ≤
          16 * (j + ((size + 4095) / 4096 * 4096 - 16 * j + 15) / 16) := by omega
      rw [streamTake_take k.iv hNle]
      refine ⟨⟨?_, ?_⟩, rfl, ?_⟩
      · show streamTake k.iv ((size + 4095) / 4096 * 4096) =
          streamTake k.iv (streamTake k.iv ((size + 4095) / 4096 * 4096)).length
        rw [streamTake_length]
      · intro _
        show (streamTake k.iv ((size + 4095) / 4096 * 4096)).length % 16 = 0
        rw [streamTake_length]
        exact hNmod
      · show size ≤ (streamTake k.iv ((size + 4095) / 4096 * 4096)).length
        rw [streamTake_length]
        exact hszN

theorem byteAt_goodKey {k : KeyState} (hk : GoodKey k) (n : Nat) :
    (byteAt k n).1 = keyStreamByte k.iv n ∧ GoodKey (byteAt k n).2 ∧
      (byteAt k n).2.iv = k.iv := by
  obtain ⟨hg, hiv, hlen⟩ := expandTo_goodKey hk (n + 1)
  refine ⟨?_, hg, hiv⟩
  show (expandTo k (n + 1)).keyData.getD n 0 = keyStreamByte k.iv n
  rw [hg.1, hiv]
  exact streamTake_getD k.iv (by omega)

theorem applyCalls_goodKey {k : KeyState} (hk : GoodKey k) (calls : List Nat) :
    GoodKey (applyCalls k calls) ∧ (applyCalls k calls).iv = k.iv := by
  induction calls generalizing k with
  | nil => exact ⟨hk, rfl⟩
  | cons i rest ih =>
    obtain ⟨-, hg, hiv⟩ := byteAt_goodKey hk i
    obtain ⟨hg2, hiv2⟩ := ih hg
    exact ⟨hg2, by rw [applyCalls, hiv2, hiv]⟩

theorem newKey_goodKey (iv : List Nat) : GoodKey (newKey iv) :=
  ⟨rfl, fun _ => rfl⟩

/-- Claim C9: for every IV and every index `n`, `ByteAt n` returns the same
byte — the byte `n` of the single infinite key stream determined by the
IV — regardless of which `ByteAt` calls were made before, and the lazily
materialized buffer is always a prefix of that stream. -/
theorem byteAt_consistent (a b c d : Nat) (calls : List Nat) (n : Nat) :
    (byteAt (applyCalls (newKey [a, b, c, d]) calls) n).1 =
      (byteAt (newKey [a, b, c, d]) n).1 ∧
    (byteAt (applyCalls (newKey [a, b, c, d]) calls) n).1 = keyStreamByte [a, b, c, d] n ∧
    (applyCalls (newKey [a, b, c, d]) calls).keyData =
      streamTake [a, b, c, d] (applyCalls (newKey [a, b, c, d]) calls).keyData.length := by
  have hnew := newKey_goodKey [a, b, c, d]
  obtain ⟨hg, hiv⟩ := applyCalls_goodKey hnew calls
  obtain ⟨hv1, -, -⟩ := byteAt_goodKey hg n
  obtain ⟨hv2, -, -⟩ := byteAt_goodKey hnew n
  rw [hiv] at hv1
  have hpre := hg.1
  rw [hiv] at hpre
  exact ⟨by rw [hv1, hv2], hv1, hpre⟩

end Mintyparse

